import Mathlib

/-!
Shallow embedding of the statistics core of `gulp-compression-report`
(`index.js`): filename normalization, per-file ingestion, per-file ratio
computation, per-extension aggregation and extension-level ratio
computation, together with the control flow of `report`.

Conventions of the embedding:
* filenames and map keys are `List Char`;
* byte sizes are `ℕ`;
* a JavaScript division result is a `JSNum` (`num q`, `inf` for `Infinity`,
  `nan` for `NaN`);
* the maps `files` and `extensions` are association lists in insertion
  order, as JavaScript objects with string keys are;
* fallible code (property access on `undefined`, which throws a
  `TypeError`) returns `Option`, with `none` for the thrown error.
-/

namespace CompressionReport

/-- Result of a JavaScript division over nonnegative numbers. -/
inductive JSNum where
  | num (q : ℚ)
  | inf
  | nan
deriving DecidableEq, Repr

/-- JavaScript `a / b` on nonnegative integers: `0 / 0` is `NaN`,
`a / 0` with `a ≠ 0` is `Infinity`, otherwise an exact rational. -/
def jsDiv (a b : ℕ) : JSNum :=
  if b = 0 then (if a = 0 then JSNum.nan else JSNum.inf)
  else JSNum.num ((a : ℚ) / (b : ℚ))

/-- Map keys / filenames. -/
abbrev Key := List Char

/-- `options.minifiedName` default `/\.min/`: the literal substring `.min`
(the regular expression contains a single escaped dot and literal letters,
no global flag). -/
def minifiedName : Key := String.toList ".min"

/-- Boolean prefix test used to model regex matching at one position. -/
def leadsWith (p s : Key) : Bool := decide (s.take p.length = p)

/-- JavaScript `String.replace` with a non-global literal pattern and empty
replacement: removes the leftmost occurrence of `p`, if any. -/
def jsReplaceFirst (p : Key) : Key → Key
  | [] => []
  | c :: r =>
    if leadsWith p (c :: r) then (c :: r).drop p.length
    else c :: jsReplaceFirst p r

/-- JavaScript `RegExp.test` for a literal pattern: substring containment. -/
def hasSub (p : Key) : Key → Bool
  | [] => leadsWith p []
  | c :: r => leadsWith p (c :: r) || hasSub p r

/-- `normalizeFilename` (line 78): `filename.replace(options.minifiedName, '')`. -/
def normalizeFilename (filename : Key) : Key := jsReplaceFirst minifiedName filename

/-- `isMinified` (line 82): `options.minifiedName.test(filename)`. -/
def isMinified (filename : Key) : Bool := hasSub minifiedName filename

/-- The `{size, gzipSize}` record stored per variant. -/
structure Variant where
  size : ℕ
  gzipSize : ℕ
deriving DecidableEq, Repr

/-- One entry of the `files` map. -/
structure FileEntry where
  name : Key
  minified : Option Variant := none
  unminified : Option Variant := none
  minificationSizeRatio : Option JSNum := none
  compressionSizeRatio : Option JSNum := none
deriving DecidableEq, Repr

/-- `_.get(file, 'minified.size', 0)`. -/
def msize (f : FileEntry) : ℕ := (f.minified.map Variant.size).getD 0

/-- `_.get(file, 'unminified.size', 0)`. -/
def usize (f : FileEntry) : ℕ := (f.unminified.map Variant.size).getD 0

/-- `determineCompressionSizeRatio` (lines 131–141).  The selected variant is
`file[(minified ? 'minified' : 'unminified')]`; when it is `undefined` the
`.gzipSize` access throws a `TypeError`, modelled by `none`. -/
def determineCompressionSizeRatio (file : FileEntry) : Option FileEntry :=
  match (if msize file ≠ 0 then file.minified else file.unminified) with
  | none => none
  | some v =>
    some { (if usize file ≠ 0 ∧ msize file ≠ 0 then
              { file with minificationSizeRatio := some (jsDiv (msize file) (usize file)) }
            else file) with
           compressionSizeRatio :=
             some (jsDiv v.gzipSize (if usize file ≠ 0 then usize file else msize file)) }

/-- `count` object of an extension bucket. -/
structure Counts where
  minified : ℕ := 0
  unminified : ℕ := 0
  both : ℕ := 0
deriving DecidableEq, Repr

/-- `size` object of an extension bucket. -/
structure Sizes where
  minified : ℕ := 0
  unminified : ℕ := 0
  src : ℕ := 0
  dist : ℕ := 0
  gzip : ℕ := 0
deriving DecidableEq, Repr

/-- `minificationRatio` object added by `postProcessExtensions`. -/
structure RatioPair where
  count : JSNum
  size : JSNum
deriving DecidableEq, Repr

/-- One entry of the `extensions` map. -/
structure ExtBucket where
  count : Counts := {}
  size : Sizes := {}
  minificationRatio : Option RatioPair := none
  compressionRatio : Option JSNum := none
deriving DecidableEq, Repr

/-- `emptyExtension()` (lines 41–56). -/
def emptyExtension : ExtBucket := {}

/-- First-match lookup in an association list (JavaScript property read). -/
def alookup {α : Type} (k : Key) : List (Key × α) → Option α
  | [] => none
  | p :: r => if p.1 = k then some p.2 else alookup k r

/-- In-place value overwrite for a key (JavaScript property write on an
existing key keeps its position). -/
def asetAll {α : Type} (k : Key) (v : α) : List (Key × α) → List (Key × α)
  | [] => []
  | p :: r => (if p.1 = k then (k, v) else p) :: asetAll k v r

abbrev Files := List (Key × FileEntry)
abbrev Exts := List (Key × ExtBucket)

/-- `record` inside `gather` (lines 92–105): normalize the name, classify by
`isMinified`, create the entry if absent, then overwrite the classified
variant field. -/
def record (files : Files) (relName : Key) (data : Variant) : Files :=
  let normalized := normalizeFilename relName
  let entry : FileEntry :=
    match alookup normalized files with
    | some e => e
    | none => { name := normalized }
  let entry1 :=
    if isMinified relName then { entry with minified := some data }
    else { entry with unminified := some data }
  match alookup normalized files with
  | some _ => asetAll normalized entry1 files
  | none => files ++ [(normalized, entry1)]

/-- `name.split('.')`. -/
def splitDots : Key → List Key
  | [] => [[]]
  | c :: r =>
    if c = '.' then [] :: splitDots r
    else
      match splitDots r with
      | [] => [[c]]
      | g :: gs => (c :: g) :: gs

/-- `_.last(name.split('.')).toLowerCase()` (line 147). -/
def fileExtension (name : Key) : Key := ((splitDots name).getLastD []).map Char.toLower

/-- The reserved wildcard key `'*'`. -/
def wildcard : Key := String.toList "*"

/-- Initial `extensions` map (lines 37–39): `{'*': emptyExtension()}`. -/
def initExtensions : Exts := [(wildcard, emptyExtension)]

/-- Body of the per-bucket fold (lines 156–174): add one file's sizes to a
bucket and bump exactly the counter selected by the truthiness of the two
sizes.  `none` models the `TypeError` thrown by
`data[(minified ? 'minified' : 'unminified')].gzipSize` when the selected
variant is `undefined`. -/
def bucketAdd (data : FileEntry) (entry : ExtBucket) : Option ExtBucket :=
  match (if msize data ≠ 0 then data.minified else data.unminified) with
  | none => none
  | some v =>
    some { entry with
      count := { minified := entry.count.minified + (if usize data = 0 ∧ msize data ≠ 0 then 1 else 0),
                 unminified := entry.count.unminified + (if usize data ≠ 0 ∧ msize data = 0 then 1 else 0),
                 both := entry.count.both + (if usize data ≠ 0 ∧ msize data ≠ 0 then 1 else 0) },
      size := { minified := entry.size.minified + msize data,
                unminified := entry.size.unminified + usize data,
                src := entry.size.src + (if usize data ≠ 0 then usize data else msize data),
                dist := entry.size.dist + (if msize data ≠ 0 then msize data else usize data),
                gzip := entry.size.gzip + v.gzipSize } }

/-- Lines 149–151: create the bucket if absent. -/
def ensureBucket (ext : Key) (exts : Exts) : Exts :=
  match alookup ext exts with
  | some _ => exts
  | none => exts ++ [(ext, emptyExtension)]

/-- One iteration of `_.each(['*', extension], ...)`: read the bucket
(`undefined` access throws when absent) and fold the file into it. -/
def updateBucket (data : FileEntry) (k : Key) (exts : Exts) : Option Exts :=
  match alookup k exts with
  | none => none
  | some b => (bucketAdd data b).map (fun b1 => asetAll k b1 exts)

/-- The `_.forOwn` callback of `postProcessFiles` without the ratio step
(lines 147–174): compute the extension, create its bucket if needed, then
fold the file into the wildcard bucket and into its extension bucket. -/
def foldFileIntoExts (name : Key) (data : FileEntry) (exts : Exts) : Option Exts :=
  (updateBucket data wildcard (ensureBucket (fileExtension name) exts)).bind
    (updateBucket data (fileExtension name))

/-- Iteration of `postProcessFiles` over the `files` map in insertion order. -/
def ppfGo : Files → Exts → Option (Files × Exts)
  | [], exts => some ([], exts)
  | (name, data) :: rest, exts =>
    match determineCompressionSizeRatio data with
    | none => none
    | some data1 =>
      match foldFileIntoExts name data1 exts with
      | none => none
      | some exts1 =>
        match ppfGo rest exts1 with
        | none => none
        | some (rest1, exts2) => some ((name, data1) :: rest1, exts2)

/-- `postProcessFiles` (lines 143–176), as a function of the two maps. -/
def postProcessFiles (files : Files) (exts : Exts) : Option (Files × Exts) :=
  ppfGo files exts

/-- Ratio computation of `postProcessExtensions` for one bucket
(lines 180–185).  `_.sum(data.count)` sums the three count fields, as the
explicit `_.sum(_.values(data.count))` at line 272 does. -/
def setRatios (data : ExtBucket) : ExtBucket :=
  { data with
      minificationRatio :=
        some { count := jsDiv (data.count.minified + data.count.both)
                              (data.count.minified + data.count.unminified + data.count.both),
               size := jsDiv data.size.dist data.size.src },
      compressionRatio := some (jsDiv data.size.gzip data.size.src) }

/-- `postProcessExtensions` (lines 178–187). -/
def postProcessExtensions (exts : Exts) : Exts :=
  exts.map (fun p => (p.1, setRatios p.2))

/-- What `printPerc` (lines 238–240, 268–270) renders:
`num ? (100 * num).toFixed(0) + '%' : '--'`.  `undefined`, `NaN` and `0`
are falsy and give the `'--'` placeholder; `Infinity` is truthy and gives
the string `'Infinity%'`. -/
inductive Rendered where
  | na
  | percent (q : ℚ)
  | infinityPercent
deriving DecidableEq, Repr

def printPerc (x : Option JSNum) : Rendered :=
  match x with
  | none => Rendered.na
  | some JSNum.nan => Rendered.na
  | some JSNum.inf => Rendered.infinityPercent
  | some (JSNum.num q) => if q = 0 then Rendered.na else Rendered.percent (100 * q)

/-- Observable outcome of `report` (lines 193–298): whether the `'no data'`
notice was emitted, the two maps after the call, and how many tables were
rendered. -/
structure ReportResult where
  noData : Bool
  files : Files
  extensions : Exts
  tablesRendered : ℕ
deriving DecidableEq, Repr

/-- `report` (lines 193–298): with no files it logs `'no data'` and returns
at once; otherwise it runs `postProcessFiles`, `postProcessExtensions` and
renders the three tables. -/
def report (files : Files) (exts : Exts) : Option ReportResult :=
  if files.isEmpty then
    some { noData := true, files := files, extensions := exts, tablesRendered := 0 }
  else
    match postProcessFiles files exts with
    | none => none
    | some (files1, exts1) =>
      some { noData := false, files := files1,
             extensions := postProcessExtensions exts1, tablesRendered := 3 }

/-- The eight additive statistics of a bucket (three counters, five sizes),
collected into one record for stating sum invariants. -/
structure CS where
  cMin : ℕ
  cUnmin : ℕ
  cBoth : ℕ
  sMin : ℕ
  sUnmin : ℕ
  sSrc : ℕ
  sDist : ℕ
  sGzip : ℕ
deriving DecidableEq, Repr

def CSof (b : ExtBucket) : CS :=
  ⟨b.count.minified, b.count.unminified, b.count.both,
   b.size.minified, b.size.unminified, b.size.src, b.size.dist, b.size.gzip⟩

def addCS (x y : CS) : CS :=
  ⟨x.cMin + y.cMin, x.cUnmin + y.cUnmin, x.cBoth + y.cBoth, x.sMin + y.sMin,
   x.sUnmin + y.sUnmin, x.sSrc + y.sSrc, x.sDist + y.sDist, x.sGzip + y.sGzip⟩

def smulCS (n : ℕ) (x : CS) : CS :=
  ⟨n * x.cMin, n * x.cUnmin, n * x.cBoth, n * x.sMin,
   n * x.sUnmin, n * x.sSrc, n * x.sDist, n * x.sGzip⟩

def zeroCS : CS := ⟨0, 0, 0, 0, 0, 0, 0, 0⟩

/-- The statistics one file adds to each bucket it is folded into (the update
of lines 158–173 written as an increment). -/
def deltaCS (data : FileEntry) : CS :=
  ⟨(if usize data = 0 ∧ msize data ≠ 0 then 1 else 0),
   (if usize data ≠ 0 ∧ msize data = 0 then 1 else 0),
   (if usize data ≠ 0 ∧ msize data ≠ 0 then 1 else 0),
   msize data, usize data,
   (if usize data ≠ 0 then usize data else msize data),
   (if msize data ≠ 0 then msize data else usize data),
   ((if msize data ≠ 0 then data.minified else data.unminified).map Variant.gzipSize).getD 0⟩

/-- The non-wildcard buckets, in map order. -/
def realBuckets : Exts → List ExtBucket
  | [] => []
  | p :: r => if p.1 = wildcard then realBuckets r else p.2 :: realBuckets r

def sumCS (l : List ExtBucket) : CS := l.foldr (fun b acc => addCS (CSof b) acc) zeroCS

/-- How many times one file named `name` is folded into the bucket keyed `k`:
once for the wildcard key, once for the file's own extension (twice for the
wildcard bucket when the extension is itself `*`). -/
def hits (k : Key) (name : Key) : ℕ :=
  (if k = wildcard then 1 else 0) + (if fileExtension name = k then 1 else 0)

/-- Whether some file of the list has extension `k`. -/
def touches (k : Key) (fs : Files) : Bool :=
  fs.any (fun p => decide (fileExtension p.1 = k))

/-- Total statistics the files of `fs` add to the bucket keyed `k`. -/
def accCS (k : Key) (fs : Files) : CS :=
  fs.foldr (fun p acc => addCS (smulCS (hits k p.1) (deltaCS p.2)) acc) zeroCS

/-- The two derived ratio fields of a bucket. -/
def bucketRatios (b : ExtBucket) : Option RatioPair × Option JSNum :=
  (b.minificationRatio, b.compressionRatio)

/-! ### Lemmas about the normalizer -/

theorem leadsWith_le_length {p s : Key} (h : leadsWith p s = true) : p.length ≤ s.length := by
  have ht : s.take p.length = p := of_decide_eq_true h
  have := congrArg List.length ht
  simp [List.length_take] at this
  omega

theorem jsReplaceFirst_eq_self (p : Key) : ∀ s, hasSub p s = false → jsReplaceFirst p s = s := by
  intro s
  induction s with
  | nil => intro _; rfl
  | cons c r ih =>
    intro h
    rw [hasSub, Bool.or_eq_false_iff] at h
    simp [jsReplaceFirst, h.1, ih h.2]

theorem jsReplaceFirst_spec (p : Key) (hp : p ≠ []) :
    ∀ s, hasSub p s = true →
      ∃ a b, s = a ++ p ++ b ∧ jsReplaceFirst p s = a ++ b ∧
        ∀ a' b', s = a' ++ p ++ b' → a.length ≤ a'.length := by
  intro s
  induction s with
  | nil =>
    intro h
    rw [hasSub, leadsWith] at h
    have := of_decide_eq_true h
    simp at this
    exact absurd this hp
  | cons c r ih =>
    intro h
    by_cases hl : leadsWith p (c :: r) = true
    · refine ⟨[], (c :: r).drop p.length, ?_, ?_, ?_⟩
      · have ht : (c :: r).take p.length = p := of_decide_eq_true hl
        calc c :: r = (c :: r).take p.length ++ (c :: r).drop p.length :=
              (List.take_append_drop _ _).symm
          _ = [] ++ p ++ (c :: r).drop p.length := by rw [ht]; rfl
      · simp [jsReplaceFirst, hl]
      · intro a' b' _; exact Nat.zero_le _
    · rw [hasSub] at h
      have hr : hasSub p r = true := by
        rcases Bool.or_eq_true_iff.mp h with h1 | h1
        · exact absurd h1 hl
        · exact h1
      obtain ⟨a, b, hs, hrepl, hmin⟩ := ih hr
      refine ⟨c :: a, b, by simp [hs], ?_, ?_⟩
      · have : jsReplaceFirst p (c :: r) = c :: jsReplaceFirst p r := by
          simp [jsReplaceFirst, hl]
        rw [this, hrepl]; rfl
      · intro a' b' he
        cases a' with
        | nil =>
          exfalso
          apply hl
          rw [leadsWith]
          apply decide_eq_true
          simp at he
          rw [he]
          exact List.take_left p b'
        | cons c' a'' =>
          have he' : r = a'' ++ p ++ b' := by
            have := congrArg List.tail he
            simpa using this
          have := hmin a'' b' he'
          simpa using Nat.succ_le_succ this

theorem hasSub_iff_changes (p : Key) (hp : p ≠ []) (s : Key) :
    hasSub p s = true ↔ jsReplaceFirst p s ≠ s := by
  constructor
  · intro h hne
    obtain ⟨a, b, hs, hrepl, _⟩ := jsReplaceFirst_spec p hp s h
    rw [hrepl, hs] at hne
    have hlen := congrArg List.length hne
    rw [List.length_append, List.length_append, List.length_append] at hlen
    exact hp (List.length_eq_zero.mp (by omega))
  · intro hne
    cases hh : hasSub p s with
    | true => rfl
    | false => exact absurd (jsReplaceFirst_eq_self p s hh) hne

/-! ### Lemmas about association lists -/

theorem alookup_append_none {α : Type} (k : Key) {l₁ : List (Key × α)} (l₂ : List (Key × α))
    (h : alookup k l₁ = none) : alookup k (l₁ ++ l₂) = alookup k l₂ := by
  induction l₁ with
  | nil => rfl
  | cons p r ih =>
    rw [alookup] at h
    by_cases hk : p.1 = k
    · simp [hk] at h
    · rw [if_neg hk] at h
      simpa [alookup, hk] using ih h

theorem alookup_append_some {α : Type} (k : Key) {l₁ : List (Key × α)} (l₂ : List (Key × α))
    {v : α} (h : alookup k l₁ = some v) : alookup k (l₁ ++ l₂) = some v := by
  induction l₁ with
  | nil => simp [alookup] at h
  | cons p r ih =>
    rw [alookup] at h
    by_cases hk : p.1 = k
    · rw [if_pos hk] at h
      simpa [alookup, hk] using h
    · rw [if_neg hk] at h
      simpa [alookup, hk] using ih h

theorem alookup_asetAll_self {α : Type} (k : Key) (v : α) (l : List (Key × α)) :
    alookup k (asetAll k v l) = (alookup k l).map (fun _ => v) := by
  induction l with
  | nil => rfl
  | cons p r ih =>
    by_cases hk : p.1 = k
    · simp [asetAll, alookup, hk]
    · simp only [asetAll, if_neg hk, alookup]
      exact ih

theorem alookup_asetAll_ne {α : Type} {j k : Key} (h : j ≠ k) (v : α) (l : List (Key × α)) :
    alookup k (asetAll j v l) = alookup k l := by
  induction l with
  | nil => rfl
  | cons p r ih =>
    by_cases hj : p.1 = j
    · have hpk : p.1 ≠ k := by rw [hj]; exact h
      simp only [asetAll, if_pos hj, alookup, if_neg h, if_neg hpk]
      exact ih
    · simp only [asetAll, if_neg hj, alookup]
      by_cases hk : p.1 = k
      · simp [hk]
      · rw [if_neg hk, if_neg hk]
        exact ih

/-! ### Algebra of bucket statistics -/

theorem addCS_zero_right (x : CS) : addCS x zeroCS = x := by
  cases x; simp [addCS, zeroCS]

theorem addCS_zero_left (x : CS) : addCS zeroCS x = x := by
  cases x; simp [addCS, zeroCS]

theorem addCS_assoc (x y z : CS) : addCS (addCS x y) z = addCS x (addCS y z) := by
  cases x; cases y; cases z; simp only [addCS, CS.mk.injEq]; omega

theorem addCS_rotate (x s y : CS) : addCS (addCS x s) y = addCS (addCS y s) x := by
  cases x; cases s; cases y; simp only [addCS, CS.mk.injEq]; omega

theorem addCS_left_swap (x y z : CS) : addCS x (addCS y z) = addCS (addCS x z) y := by
  cases x; cases y; cases z; simp only [addCS, CS.mk.injEq]; omega

theorem addCS_cancel_right {x y z : CS} (h : addCS x z = addCS y z) : x = y := by
  cases x; cases y; cases z
  simp only [addCS, CS.mk.injEq] at h ⊢
  omega

theorem smulCS_one (x : CS) : smulCS 1 x = x := by
  cases x; simp [smulCS]

theorem smulCS_two (x : CS) : smulCS 2 x = addCS x x := by
  cases x; simp only [smulCS, addCS, CS.mk.injEq]; omega

theorem smulCS_zero (x : CS) : smulCS 0 x = zeroCS := by
  cases x; simp [smulCS, zeroCS]

theorem sumCS_cons (b : ExtBucket) (l : List ExtBucket) :
    sumCS (b :: l) = addCS (CSof b) (sumCS l) := rfl

theorem sumCS_append (l₁ l₂ : List ExtBucket) :
    sumCS (l₁ ++ l₂) = addCS (sumCS l₁) (sumCS l₂) := by
  induction l₁ with
  | nil => rw [List.nil_append]; exact (addCS_zero_left _).symm
  | cons b r ih =>
    rw [List.cons_append, sumCS_cons, sumCS_cons, ih]
    exact (addCS_assoc _ _ _).symm

/-- `bucketAdd` adds exactly `deltaCS` to the eight statistics and leaves the
ratio fields alone. -/
theorem bucketAdd_eq {data : FileEntry} {b b' : ExtBucket} (h : bucketAdd data b = some b') :
    CSof b' = addCS (CSof b) (deltaCS data) ∧
    b'.minificationRatio = b.minificationRatio ∧
    b'.compressionRatio = b.compressionRatio := by
  cases hsel : (if msize data ≠ 0 then data.minified else data.unminified) with
  | none => rw [bucketAdd, hsel] at h; simp at h
  | some v =>
    rw [bucketAdd, hsel] at h
    simp only [Option.some.injEq] at h
    subst h
    refine ⟨?_, rfl, rfl⟩
    simp [CSof, addCS, deltaCS, hsel]

/-! ### Association-list bookkeeping for the extension map -/

theorem alookup_eq_none {α : Type} {k : Key} {l : List (Key × α)} :
    alookup k l = none ↔ k ∉ l.map Prod.fst := by
  induction l with
  | nil => simp [alookup]
  | cons p r ih =>
    rw [alookup, List.map_cons, List.mem_cons]
    by_cases hk : p.1 = k
    · rw [if_pos hk, hk]
      constructor
      · intro hcontra
        exact Option.noConfusion hcontra
      · intro hn
        exact absurd (Or.inl rfl) hn
    · rw [if_neg hk, ih]
      constructor
      · intro hn hmem
        rcases hmem with hmem | hmem
        · exact hk hmem.symm
        · exact hn hmem
      · intro hn hmem
        exact hn (Or.inr hmem)

theorem asetAll_of_none {α : Type} {k : Key} {l : List (Key × α)} (h : alookup k l = none)
    (v : α) : asetAll k v l = l := by
  induction l with
  | nil => rfl
  | cons p r ih =>
    rw [alookup] at h
    by_cases hk : p.1 = k
    · rw [if_pos hk] at h; exact Option.noConfusion h
    · rw [if_neg hk] at h
      rw [asetAll, if_neg hk, ih h]

theorem keys_asetAll {α : Type} (k : Key) (v : α) (l : List (Key × α)) :
    (asetAll k v l).map Prod.fst = l.map Prod.fst := by
  induction l with
  | nil => rfl
  | cons p r ih =>
    by_cases hk : p.1 = k
    · simp [asetAll, hk, ih]
    · simp [asetAll, hk, ih]

theorem alookup_ensure_self (k : Key) (exts : Exts) :
    alookup k (ensureBucket k exts) = some ((alookup k exts).getD emptyExtension) := by
  cases hl : alookup k exts with
  | some b => rw [ensureBucket, hl]; rw [hl]; rfl
  | none =>
    rw [ensureBucket, hl]
    rw [alookup_append_none _ _ hl]
    simp [alookup]

theorem alookup_ensure_ne {j k : Key} (h : j ≠ k) (exts : Exts) :
    alookup k (ensureBucket j exts) = alookup k exts := by
  cases hl : alookup j exts with
  | some b => rw [ensureBucket, hl]
  | none =>
    rw [ensureBucket, hl]
    cases hk : alookup k exts with
    | some b => exact alookup_append_some _ _ hk
    | none =>
      rw [alookup_append_none _ _ hk]
      simp [alookup, h]

theorem nodup_ensure {k : Key} {exts : Exts} (h : (exts.map Prod.fst).Nodup) :
    ((ensureBucket k exts).map Prod.fst).Nodup := by
  cases hl : alookup k exts with
  | some b => rw [ensureBucket, hl]; exact h
  | none =>
    rw [ensureBucket, hl]
    have hk : k ∉ exts.map Prod.fst := alookup_eq_none.mp hl
    rw [List.map_append]
    simp [List.nodup_append, h, hk]

theorem realBuckets_append_single (l : Exts) (k : Key) (b : ExtBucket) :
    realBuckets (l ++ [(k, b)]) = realBuckets l ++ (if k = wildcard then [] else [b]) := by
  induction l with
  | nil =>
    rw [List.nil_append]
    by_cases hk : k = wildcard <;> simp [realBuckets, hk]
  | cons p r ih =>
    by_cases hp : p.1 = wildcard <;> simp [realBuckets, hp, ih]

theorem realBuckets_asetAll_wild (v : ExtBucket) (l : Exts) :
    realBuckets (asetAll wildcard v l) = realBuckets l := by
  induction l with
  | nil => rfl
  | cons p r ih =>
    by_cases hk : p.1 = wildcard
    · rw [asetAll, if_pos hk, realBuckets, realBuckets, if_pos hk]
      rw [if_pos rfl]
      exact ih
    · rw [asetAll, if_neg hk, realBuckets, realBuckets, if_neg hk, if_neg hk, ih]

theorem sumCS_asetAll {k : Key} {l : Exts} {b : ExtBucket}
    (hnd : (l.map Prod.fst).Nodup) (hl : alookup k l = some b) (hkw : k ≠ wildcard)
    (v : ExtBucket) :
    addCS (sumCS (realBuckets (asetAll k v l))) (CSof b)
      = addCS (sumCS (realBuckets l)) (CSof v) := by
  induction l with
  | nil => simp [alookup] at hl
  | cons p r ih =>
    rw [List.map_cons, List.nodup_cons] at hnd
    by_cases hpk : p.1 = k
    · rw [alookup, if_pos hpk, Option.some.injEq] at hl
      have hkr : alookup k r = none := alookup_eq_none.mpr (hpk ▸ hnd.1)
      rw [asetAll, if_pos hpk, asetAll_of_none hkr]
      have hpw : ¬p.1 = wildcard := hpk ▸ hkw
      rw [realBuckets, if_neg hkw, realBuckets, if_neg hpw, hl]
      rw [sumCS_cons, sumCS_cons]
      exact addCS_rotate _ _ _
    · rw [alookup, if_neg hpk] at hl
      rw [asetAll, if_neg hpk]
      by_cases hpw : p.1 = wildcard
      · rw [realBuckets, if_pos hpw, realBuckets, if_pos hpw]
        exact ih hnd.2 hl
      · rw [realBuckets, if_neg hpw, realBuckets, if_neg hpw, sumCS_cons, sumCS_cons]
        rw [addCS_assoc, addCS_assoc, ih hnd.2 hl]

/-! ### Destructuring successful folds -/

theorem updateBucket_eq {data : FileEntry} {k : Key} {exts exts₂ : Exts}
    (h : updateBucket data k exts = some exts₂) :
    ∃ b b', alookup k exts = some b ∧ bucketAdd data b = some b' ∧
      exts₂ = asetAll k b' exts := by
  cases hl : alookup k exts with
  | none => simp [updateBucket, hl] at h
  | some b =>
    simp only [updateBucket, hl] at h
    cases hb : bucketAdd data b with
    | none => rw [hb] at h; simp at h
    | some b' =>
      rw [hb] at h
      simp only [Option.map_some', Option.some.injEq] at h
      exact ⟨b, b', rfl, hb, h.symm⟩

theorem foldFile_eq {n : Key} {data : FileEntry} {exts exts₃ : Exts}
    (h : foldFileIntoExts n data exts = some exts₃) :
    ∃ w w' b b',
      alookup wildcard (ensureBucket (fileExtension n) exts) = some w ∧
      bucketAdd data w = some w' ∧
      alookup (fileExtension n)
        (asetAll wildcard w' (ensureBucket (fileExtension n) exts)) = some b ∧
      bucketAdd data b = some b' ∧
      exts₃ = asetAll (fileExtension n) b'
        (asetAll wildcard w' (ensureBucket (fileExtension n) exts)) := by
  rw [foldFileIntoExts] at h
  cases h1 : updateBucket data wildcard (ensureBucket (fileExtension n) exts) with
  | none => rw [h1] at h; simp at h
  | some E2 =>
    rw [h1] at h
    simp only [Option.some_bind] at h
    obtain ⟨w, w', hw, hww, hE2⟩ := updateBucket_eq h1
    subst hE2
    obtain ⟨b, b', hb, hbb, hE3⟩ := updateBucket_eq h
    exact ⟨w, w', b, b', hw, hww, hb, hbb, hE3⟩

/-! ### The wildcard-sum invariant (C3) -/

/-- The wildcard bucket exists and carries exactly the componentwise sum of
the statistics of all real buckets (and the key list is duplicate-free). -/
def wildInv (exts : Exts) : Prop :=
  (exts.map Prod.fst).Nodup ∧
  (alookup wildcard exts).map CSof = some (sumCS (realBuckets exts))

theorem wildInv_init : wildInv initExtensions := by
  constructor
  · simp [initExtensions]
  · rfl

theorem foldFile_inv {n : Key} {data : FileEntry} {exts exts₃ : Exts}
    (hne : fileExtension n ≠ wildcard) (hi : wildInv exts)
    (h : foldFileIntoExts n data exts = some exts₃) : wildInv exts₃ := by
  obtain ⟨w, w', b, b', hw, hww, hb, hbb, rfl⟩ := foldFile_eq h
  obtain ⟨hnd, hsum⟩ := hi
  have hnd1 : ((ensureBucket (fileExtension n) exts).map Prod.fst).Nodup := nodup_ensure hnd
  constructor
  · rw [keys_asetAll, keys_asetAll]; exact hnd1
  · have hw0 : alookup wildcard exts = some w := by
      rw [← alookup_ensure_ne hne exts]; exact hw
    have hCSw : CSof w = sumCS (realBuckets exts) := by
      rw [hw0, Option.map_some', Option.some.injEq] at hsum
      exact hsum
    have hwE2 : alookup wildcard
        (asetAll wildcard w' (ensureBucket (fileExtension n) exts)) = some w' := by
      rw [alookup_asetAll_self, hw]; rfl
    have hw3 : alookup wildcard
        (asetAll (fileExtension n) b'
          (asetAll wildcard w' (ensureBucket (fileExtension n) exts))) = some w' := by
      rw [alookup_asetAll_ne hne]; exact hwE2
    have h1 : sumCS (realBuckets (ensureBucket (fileExtension n) exts))
        = sumCS (realBuckets exts) := by
      cases hl : alookup (fileExtension n) exts with
      | some _ => rw [ensureBucket, hl]
      | none =>
        rw [ensureBucket, hl, realBuckets_append_single, if_neg hne, sumCS_append]
        have hone : sumCS [emptyExtension] = zeroCS := rfl
        rw [hone, addCS_zero_right]
    have h2 : sumCS (realBuckets
        (asetAll wildcard w' (ensureBucket (fileExtension n) exts)))
        = sumCS (realBuckets exts) := by
      rw [realBuckets_asetAll_wild]; exact h1
    have hnd2 : ((asetAll wildcard w' (ensureBucket (fileExtension n) exts)).map
        Prod.fst).Nodup := by
      rw [keys_asetAll]; exact hnd1
    have h3 := sumCS_asetAll hnd2 hb hne b'
    rw [h2, (bucketAdd_eq hbb).1] at h3
    rw [addCS_left_swap] at h3
    have h4 := addCS_cancel_right h3
    rw [hw3, Option.map_some', Option.some.injEq, h4]
    rw [(bucketAdd_eq hww).1, hCSw]

theorem ppfGo_inv : ∀ (fs : Files) (exts : Exts) (fs' : Files) (exts' : Exts),
    (∀ p ∈ fs, fileExtension p.1 ≠ wildcard) → wildInv exts →
    ppfGo fs exts = some (fs', exts') → wildInv exts' := by
  intro fs
  induction fs with
  | nil =>
    intro exts fs' exts' _ hi h
    simp only [ppfGo, Option.some.injEq, Prod.mk.injEq] at h
    rw [← h.2]
    exact hi
  | cons p rest ih =>
    intro exts fs' exts' hext hi h
    obtain ⟨n, data⟩ := p
    cases hd : determineCompressionSizeRatio data with
    | none => simp only [ppfGo, hd] at h; exact Option.noConfusion h
    | some data1 =>
      cases hf : foldFileIntoExts n data1 exts with
      | none => simp only [ppfGo, hd, hf] at h; exact Option.noConfusion h
      | some exts1 =>
        cases hrest : ppfGo rest exts1 with
        | none => simp only [ppfGo, hd, hf, hrest] at h; exact Option.noConfusion h
        | some pr =>
          obtain ⟨rest1, exts2⟩ := pr
          simp only [ppfGo, hd, hf, hrest, Option.some.injEq, Prod.mk.injEq] at h
          have hi1 : wildInv exts1 :=
            foldFile_inv (hext (n, data) (by simp)) hi hf
          have := ih exts1 rest1 exts2 (fun q hq => hext q (by simp [hq])) hi1 hrest
          rw [← h.2]
          exact this

/-! ### Claims about the normalizer and ingestion -/

/-- C6 (corrected): with the default marker (the non-global regex `/\.min/`),
normalization removes only the leftmost occurrence of `.min`; when the
marker is absent the name is returned unchanged.  The result is a pure
function of the filename, hence identical on every call. -/
theorem claimC6 (s : Key) :
    (hasSub minifiedName s = false → normalizeFilename s = s) ∧
    (hasSub minifiedName s = true →
      ∃ a b, s = a ++ minifiedName ++ b ∧ normalizeFilename s = a ++ b ∧
        ∀ a' b', s = a' ++ minifiedName ++ b' → a.length ≤ a'.length) :=
  ⟨jsReplaceFirst_eq_self minifiedName s,
   fun h => jsReplaceFirst_spec minifiedName (by decide) s h⟩

theorem claimC6_witness :
    ∃ a b, String.toList "app.min.css" = a ++ minifiedName ++ b ∧
      normalizeFilename (String.toList "app.min.css") = a ++ b := by
  obtain ⟨a, b, h1, h2, _⟩ := (claimC6 (String.toList "app.min.css")).2 (by decide)
  exact ⟨a, b, h1, h2⟩

theorem claimC6_counterexample :
    normalizeFilename (String.toList "a.min.min.js") = String.toList "a.min.js" ∧
    hasSub minifiedName (normalizeFilename (String.toList "a.min.min.js")) = true := by decide

/-- C10 (confirmed): under the default marker, `isMinified` holds exactly when
normalization changes the name, and `record` stores the incoming data under
the `minified` field of the entry at the normalized key exactly in that
case (under `unminified` otherwise). -/
theorem claimC10 (name : Key) (m : Files) (d : Variant) :
    (isMinified name = true ↔ normalizeFilename name ≠ name) ∧
    ∃ e, alookup (normalizeFilename name) (record m name d) = some e ∧
      (isMinified name = true → e.minified = some d) ∧
      (isMinified name = false → e.unminified = some d) := by
  constructor
  · exact hasSub_iff_changes minifiedName (by decide) name
  · cases hl : alookup (normalizeFilename name) m with
    | some e0 =>
      cases hmin : isMinified name with
      | true =>
        refine ⟨{ e0 with minified := some d }, ?_, by simp, by simp [hmin]⟩
        simp [record, hl, hmin, alookup_asetAll_self]
      | false =>
        refine ⟨{ e0 with unminified := some d }, ?_, by simp [hmin], by simp⟩
        simp [record, hl, hmin, alookup_asetAll_self]
    | none =>
      cases hmin : isMinified name with
      | true =>
        refine ⟨{ name := normalizeFilename name, minified := some d }, ?_, by simp, by simp [hmin]⟩
        rw [record]
        simp only [hl, hmin]
        rw [alookup_append_none _ _ hl]
        simp [alookup]
      | false =>
        refine ⟨{ name := normalizeFilename name, unminified := some d }, ?_, by simp [hmin], by simp⟩
        rw [record]
        simp only [hl, hmin]
        rw [alookup_append_none _ _ hl]
        simp [alookup]

/-- C9 (confirmed): with an empty `files` map, `report` emits the single
`'no data'` notice, leaves both maps untouched (no aggregation, no ratio
computation) and renders no table. -/
theorem claimC9 (exts : Exts) :
    report [] exts
      = some { noData := true, files := [], extensions := exts, tablesRendered := 0 } := rfl

/-- C5 (code_bug): per-file ratio computation is not error-free.  For a
minified-only entry of size 0 (an ingested empty `x.min.js`),
`determineCompressionSizeRatio` reads `file.unminified.gzipSize` with
`file.unminified` undefined and throws a `TypeError` (modelled by `none`);
`postProcessFiles` on such an entry fails the same way.  Moreover, for a
zero-size unminified-only entry the division yields `Infinity`, which
`printPerc` renders as `'Infinity%'`, not as the `'--'` placeholder. -/
theorem claimC5 :
    determineCompressionSizeRatio { name := String.toList "x.js", minified := some ⟨0, 20⟩ } = none ∧
    postProcessFiles
        [(String.toList "x.js", { name := String.toList "x.js", minified := some ⟨0, 20⟩ })]
        initExtensions = none ∧
    (determineCompressionSizeRatio { name := String.toList "y.js", unminified := some ⟨0, 20⟩ }).map
        (fun e => printPerc e.compressionSizeRatio) = some Rendered.infinityPercent := by decide

/-- C1 (corrected): `minificationSizeRatio` is set to minified size `B` over
unminified size `A` only when both variants are present with nonzero
(truthy) sizes; whenever either size is zero or a variant is missing, the
field is left unchanged (hence undefined for entries as ingest creates
them). -/
theorem claimC1 (e : FileEntry) :
    (∀ A B gA gB, e.unminified = some ⟨A, gA⟩ → e.minified = some ⟨B, gB⟩ → A ≠ 0 → B ≠ 0 →
      (determineCompressionSizeRatio e).map FileEntry.minificationSizeRatio
        = some (some (JSNum.num ((B : ℚ) / (A : ℚ))))) ∧
    (usize e = 0 ∨ msize e = 0 →
      ∀ e', determineCompressionSizeRatio e = some e' →
        e'.minificationSizeRatio = e.minificationSizeRatio) := by
  constructor
  · intro A B gA gB hu hm hA hB
    simp [determineCompressionSizeRatio, msize, usize, hm, hu, hA, hB, jsDiv]
  · intro h e' he'
    have hg : ¬(usize e ≠ 0 ∧ msize e ≠ 0) := by
      rcases h with h | h <;> simp [h]
    cases hsel : (if msize e ≠ 0 then e.minified else e.unminified) with
    | none =>
      rw [determineCompressionSizeRatio, hsel] at he'
      simp at he'
    | some v =>
      rw [determineCompressionSizeRatio, hsel] at he'
      rw [if_neg hg] at he'
      simp only [Option.some.injEq] at he'
      rw [← he']

/-- The claim's prediction for a file with unminified size 5 and minified
size 0 is `minificationSizeRatio = 0/5`; the code leaves it undefined. -/
theorem claimC1_counterexample :
    (determineCompressionSizeRatio
        { name := String.toList "a.js", unminified := some ⟨5, 2⟩, minified := some ⟨0, 1⟩ }).map
      FileEntry.minificationSizeRatio = some none ∧
    (some none : Option (Option JSNum)) ≠ some (some (JSNum.num ((0 : ℚ) / 5))) := by decide

theorem claimC1_witness :
    (determineCompressionSizeRatio
        { name := String.toList "a.js", unminified := some ⟨5, 3⟩, minified := some ⟨4, 2⟩ }).map
      FileEntry.minificationSizeRatio = some (some (JSNum.num ((4 : ℚ) / (5 : ℚ)))) :=
  (claimC1 _).1 5 4 3 2 rfl rfl (by decide) (by decide)

/-- C2 (corrected): the variant supplying `compressed` is selected by the
truthiness of the minified *size*, not by presence: the minified gzip size
is used when the minified size is nonzero, otherwise the unminified variant
is read (a `TypeError` if it is absent).  The divisor is the unminified
size if nonzero, else the minified size. -/
theorem claimC2 (e : FileEntry) :
    (∀ v, e.minified = some v → v.size ≠ 0 →
      (determineCompressionSizeRatio e).map FileEntry.compressionSizeRatio
        = some (some (jsDiv v.gzipSize (if usize e ≠ 0 then usize e else v.size)))) ∧
    (∀ v, msize e = 0 → e.unminified = some v →
      (determineCompressionSizeRatio e).map FileEntry.compressionSizeRatio
        = some (some (jsDiv v.gzipSize v.size))) ∧
    (msize e = 0 → e.unminified = none → determineCompressionSizeRatio e = none) := by
  refine ⟨?_, ?_, ?_⟩
  · intro v hm hv
    simp [determineCompressionSizeRatio, msize, hm, hv]
  · intro v h0 hu
    by_cases hv : v.size = 0
    · have h0' : msize e = v.size := by rw [h0, hv]
      simp [determineCompressionSizeRatio, usize, h0, h0', hu, hv]
    · simp [determineCompressionSizeRatio, usize, h0, hu, hv]
  · intro h0 hun
    simp [determineCompressionSizeRatio, h0, hun]

/-- For a file with unminified `{size 5, gzip 3}` and minified
`{size 0, gzip 1}` the claim predicts `compressed = 1` (minified variant
present) and ratio `1/5`; the code uses the unminified gzip size and
produces `3/5`. -/
theorem claimC2_counterexample :
    (determineCompressionSizeRatio
        { name := String.toList "a.js", unminified := some ⟨5, 3⟩, minified := some ⟨0, 1⟩ }).map
      FileEntry.compressionSizeRatio = some (some (jsDiv 3 5)) ∧
    jsDiv 3 5 ≠ jsDiv 1 5 := by
  constructor
  · simp [determineCompressionSizeRatio, msize, usize]
  · intro h
    rw [jsDiv, jsDiv, if_neg (by norm_num : ¬(5 = 0)), if_neg (by norm_num : ¬(5 = 0))] at h
    rw [JSNum.num.injEq] at h
    norm_num at h

theorem claimC2_witness :
    (determineCompressionSizeRatio
        { name := String.toList "a.js", unminified := some ⟨5, 3⟩, minified := some ⟨4, 2⟩ }).map
      FileEntry.compressionSizeRatio = some (some (jsDiv 2 5)) := by
  have h := (claimC2 { name := String.toList "a.js", unminified := some ⟨5, 3⟩, minified := some ⟨4, 2⟩ }).1
    ⟨4, 2⟩ rfl (by decide)
  simpa [usize] using h

/-- C7 (corrected): the bucket fold classifies by truthiness of the two
sizes, not by presence of the variants: `count.both` is bumped iff both
sizes are nonzero, `count.unminified` iff only the unminified size is
nonzero, `count.minified` iff only the minified size is nonzero — and no
counter at all is bumped when both sizes are zero. -/
theorem claimC7 (data : FileEntry) (b b' : ExtBucket) (h : bucketAdd data b = some b') :
    (usize data ≠ 0 → msize data ≠ 0 →
      b'.count = { minified := b.count.minified, unminified := b.count.unminified,
                   both := b.count.both + 1 }) ∧
    (usize data ≠ 0 → msize data = 0 →
      b'.count = { minified := b.count.minified, unminified := b.count.unminified + 1,
                   both := b.count.both }) ∧
    (usize data = 0 → msize data ≠ 0 →
      b'.count = { minified := b.count.minified + 1, unminified := b.count.unminified,
                   both := b.count.both }) ∧
    (usize data = 0 → msize data = 0 → b'.count = b.count) := by
  cases hsel : (if msize data ≠ 0 then data.minified else data.unminified) with
  | none =>
    rw [bucketAdd, hsel] at h
    simp at h
  | some v =>
    rw [bucketAdd, hsel] at h
    simp only [Option.some.injEq] at h
    rw [← h]
    refine ⟨?_, ?_, ?_, ?_⟩ <;> intro h1 h2 <;> simp [h1, h2]

/-- A zero-size unminified-only file is folded without touching any of the
three counters; the claim predicts `count.unminified` is incremented. -/
theorem claimC7_counterexample :
    (postProcessFiles
        [(String.toList "a.js", { name := String.toList "a.js", unminified := some ⟨0, 3⟩ })]
        initExtensions).map
      (fun r => (alookup (String.toList "js") r.2).map ExtBucket.count)
      = some (some ⟨0, 0, 0⟩) ∧
    (some (some (⟨0, 0, 0⟩ : Counts)) : Option (Option Counts)) ≠ some (some ⟨0, 1, 0⟩) := by decide

theorem claimC7_witness :
    bucketAdd { name := String.toList "a.js", minified := some ⟨3, 1⟩, unminified := some ⟨5, 2⟩ }
        emptyExtension = some ⟨⟨0, 0, 1⟩, ⟨3, 5, 5, 3, 1⟩, none, none⟩ ∧
    (⟨⟨0, 0, 1⟩, ⟨3, 5, 5, 3, 1⟩, none, none⟩ : ExtBucket).count
      = { minified := 0, unminified := 0, both := 1 } :=
  ⟨by decide,
   (claimC7 { name := String.toList "a.js", minified := some ⟨3, 1⟩, unminified := some ⟨5, 2⟩ }
      emptyExtension ⟨⟨0, 0, 1⟩, ⟨3, 5, 5, 3, 1⟩, none, none⟩ (by decide)).1
     (by decide) (by decide)⟩

/-- A file whose extension is the literal `*` is folded twice into the
wildcard bucket, so the wildcard totals are not the sum over the (here
empty) set of real buckets. -/
theorem claimC3_counterexample :
    (postProcessFiles
        [(String.toList "a.*", { name := String.toList "a.*", unminified := some ⟨1, 1⟩ })]
        initExtensions).map
      (fun r => ((alookup wildcard r.2).map CSof, sumCS (realBuckets r.2)))
      = some (some ⟨0, 2, 0, 0, 2, 2, 2, 2⟩, zeroCS) ∧
    (some (⟨0, 2, 0, 0, 2, 2, 2, 2⟩ : CS) : Option CS) ≠ some zeroCS := by decide

/-! ### Per-file ratio computation is variant-preserving and idempotent -/

theorem det_variants {f e' : FileEntry} (h : determineCompressionSizeRatio f = some e') :
    e'.name = f.name ∧ e'.minified = f.minified ∧ e'.unminified = f.unminified := by
  cases hsel : (if msize f ≠ 0 then f.minified else f.unminified) with
  | none => rw [determineCompressionSizeRatio, hsel] at h; exact Option.noConfusion h
  | some v =>
    rw [determineCompressionSizeRatio, hsel] at h
    by_cases hg : usize f ≠ 0 ∧ msize f ≠ 0
    · rw [if_pos hg] at h
      simp only [Option.some.injEq] at h
      rw [← h]
      exact ⟨rfl, rfl, rfl⟩
    · rw [if_neg hg] at h
      simp only [Option.some.injEq] at h
      rw [← h]
      exact ⟨rfl, rfl, rfl⟩

theorem det_idem {f e' : FileEntry} (h : determineCompressionSizeRatio f = some e') :
    determineCompressionSizeRatio e' = some e' := by
  obtain ⟨_, hm, hu⟩ := det_variants h
  have hms : msize e' = msize f := by rw [msize, msize, hm]
  have hus : usize e' = usize f := by rw [usize, usize, hu]
  cases hsel : (if msize f ≠ 0 then f.minified else f.unminified) with
  | none => rw [determineCompressionSizeRatio, hsel] at h; exact Option.noConfusion h
  | some v =>
    have hsel' : (if msize e' ≠ 0 then e'.minified else e'.unminified) = some v := by
      rw [hms, hm, hu]; exact hsel
    rw [determineCompressionSizeRatio, hsel] at h
    rw [determineCompressionSizeRatio, hsel']
    by_cases hg : usize f ≠ 0 ∧ msize f ≠ 0
    · rw [if_pos hg] at h
      rw [if_pos (by rw [hus, hms]; exact hg)]
      simp only [Option.some.injEq] at h
      rw [hms, hus, ← h]
    · rw [if_neg hg] at h
      rw [if_neg (by rw [hus, hms]; exact hg)]
      simp only [Option.some.injEq] at h
      rw [hms, hus, ← h]

theorem deltaCS_det {f e' : FileEntry} (h : determineCompressionSizeRatio f = some e') :
    deltaCS e' = deltaCS f := by
  obtain ⟨_, hm, hu⟩ := det_variants h
  rw [deltaCS, deltaCS, msize, msize, usize, usize, hm, hu]

/-! ### Per-key accumulation of the extension fold -/

theorem accCS_nil (k : Key) : accCS k [] = zeroCS := rfl

theorem accCS_cons (k : Key) (p : Key × FileEntry) (fs : Files) :
    accCS k (p :: fs) = addCS (smulCS (hits k p.1) (deltaCS p.2)) (accCS k fs) := rfl

theorem touches_nil (k : Key) : touches k [] = false := rfl

theorem touches_cons (k : Key) (p : Key × FileEntry) (fs : Files) :
    touches k (p :: fs) = (decide (fileExtension p.1 = k) || touches k fs) := rfl

theorem CSof_empty : CSof emptyExtension = zeroCS := rfl

theorem foldFile_lookup_some {n : Key} {data : FileEntry} {exts exts₃ : Exts}
    (h : foldFileIntoExts n data exts = some exts₃) {k : Key} {b0 : ExtBucket}
    (hcs : alookup k exts = some b0) :
    (alookup k exts₃).map CSof
      = some (addCS (CSof b0) (smulCS (hits k n) (deltaCS data))) := by
  obtain ⟨w, w', b, b', hw, hww, hb, hbb, rfl⟩ := foldFile_eq h
  by_cases ke : fileExtension n = k
  · by_cases kw : k = wildcard
    · subst kw
      rw [ke] at hw hb ⊢
      have hw' : alookup wildcard (ensureBucket wildcard exts) = some b0 := by
        rw [alookup_ensure_self, hcs]; rfl
      have hwb : w = b0 := Option.some.inj (hw.symm.trans hw')
      have hb' : b = w' := by
        rw [alookup_asetAll_self, hw] at hb
        simp only [Option.map_some'] at hb
        exact (Option.some.inj hb).symm
      rw [alookup_asetAll_self, alookup_asetAll_self, hw]
      simp only [Option.map_some']
      rw [(bucketAdd_eq hbb).1, hb', (bucketAdd_eq hww).1, hwb]
      have hh : hits wildcard n = 2 := by rw [hits, if_pos rfl, if_pos ke]
      rw [hh, smulCS_two, ← addCS_assoc]
    · rw [ke] at hw hb ⊢
      have hkw' : wildcard ≠ k := fun hh => kw hh.symm
      have hE1 : alookup k (ensureBucket k exts) = some b0 := by
        rw [alookup_ensure_self, hcs]; rfl
      have hbb0 : b = b0 := by
        rw [alookup_asetAll_ne hkw'] at hb
        exact Option.some.inj (hb.symm.trans hE1)
      rw [alookup_asetAll_self, alookup_asetAll_ne hkw', hE1]
      simp only [Option.map_some']
      rw [(bucketAdd_eq hbb).1, hbb0]
      have hh : hits k n = 1 := by rw [hits, if_neg kw, if_pos ke]
      rw [hh, smulCS_one]
  · by_cases kw : k = wildcard
    · subst kw
      have hne : fileExtension n ≠ wildcard := ke
      have hw' : alookup wildcard (ensureBucket (fileExtension n) exts) = some b0 := by
        rw [alookup_ensure_ne hne, hcs]
      have hwb : w = b0 := Option.some.inj (hw.symm.trans hw')
      rw [alookup_asetAll_ne hne, alookup_asetAll_self, hw]
      simp only [Option.map_some']
      rw [(bucketAdd_eq hww).1, hwb]
      have hh : hits wildcard n = 1 := by rw [hits, if_pos rfl, if_neg ke]
      rw [hh, smulCS_one]
    · have hne2 : fileExtension n ≠ k := ke
      have hne3 : wildcard ≠ k := fun hh => kw hh.symm
      rw [alookup_asetAll_ne hne2, alookup_asetAll_ne hne3, alookup_ensure_ne hne2, hcs]
      simp only [Option.map_some']
      have hh : hits k n = 0 := by rw [hits, if_neg kw, if_neg ke]
      rw [hh, smulCS_zero, addCS_zero_right]

theorem foldFile_lookup_none {n : Key} {data : FileEntry} {exts exts₃ : Exts}
    (h : foldFileIntoExts n data exts = some exts₃) {k : Key}
    (hcs : alookup k exts = none) :
    (alookup k exts₃).map CSof
      = (if fileExtension n = k then
          some (addCS zeroCS (smulCS (hits k n) (deltaCS data))) else none) := by
  obtain ⟨w, w', b, b', hw, hww, hb, hbb, rfl⟩ := foldFile_eq h
  by_cases ke : fileExtension n = k
  · rw [if_pos ke]
    by_cases kw : k = wildcard
    · subst kw
      rw [ke] at hw hb ⊢
      have hw' : alookup wildcard (ensureBucket wildcard exts) = some emptyExtension := by
        rw [alookup_ensure_self, hcs]; rfl
      have hwb : w = emptyExtension := Option.some.inj (hw.symm.trans hw')
      have hb' : b = w' := by
        rw [alookup_asetAll_self, hw] at hb
        simp only [Option.map_some'] at hb
        exact (Option.some.inj hb).symm
      rw [alookup_asetAll_self, alookup_asetAll_self, hw]
      simp only [Option.map_some']
      rw [(bucketAdd_eq hbb).1, hb', (bucketAdd_eq hww).1, hwb]
      have hh : hits wildcard n = 2 := by rw [hits, if_pos rfl, if_pos ke]
      rw [hh, smulCS_two, ← addCS_assoc, CSof_empty]
    · rw [ke] at hw hb ⊢
      have hkw' : wildcard ≠ k := fun hh => kw hh.symm
      have hE1 : alookup k (ensureBucket k exts) = some emptyExtension := by
        rw [alookup_ensure_self, hcs]; rfl
      have hbb0 : b = emptyExtension := by
        rw [alookup_asetAll_ne hkw'] at hb
        exact Option.some.inj (hb.symm.trans hE1)
      rw [alookup_asetAll_self, alookup_asetAll_ne hkw', hE1]
      simp only [Option.map_some']
      rw [(bucketAdd_eq hbb).1, hbb0]
      have hh : hits k n = 1 := by rw [hits, if_neg kw, if_pos ke]
      rw [hh, smulCS_one, CSof_empty]
  · rw [if_neg ke]
    by_cases kw : k = wildcard
    · exfalso
      subst kw
      have hnone : alookup wildcard (ensureBucket (fileExtension n) exts) = none := by
        rw [alookup_ensure_ne ke, hcs]
      rw [hnone] at hw
      exact Option.noConfusion hw
    · have hne2 : fileExtension n ≠ k := ke
      have hne3 : wildcard ≠ k := fun hh => kw hh.symm
      rw [alookup_asetAll_ne hne2, alookup_asetAll_ne hne3, alookup_ensure_ne hne2, hcs]
      rfl

theorem ppfGo_lookup_some : ∀ (fs : Files) (exts : Exts) (fs' : Files) (exts' : Exts),
    ppfGo fs exts = some (fs', exts') →
    ∀ (k : Key) (b0 : ExtBucket), alookup k exts = some b0 →
    (alookup k exts').map CSof = some (addCS (CSof b0) (accCS k fs)) := by
  intro fs
  induction fs with
  | nil =>
    intro exts fs' exts' h k b0 hcs
    simp only [ppfGo, Option.some.injEq, Prod.mk.injEq] at h
    rw [← h.2, hcs]
    simp only [Option.map_some']
    rw [accCS_nil, addCS_zero_right]
  | cons p rest ih =>
    intro exts fs' exts' h k b0 hcs
    obtain ⟨n, data⟩ := p
    cases hd : determineCompressionSizeRatio data with
    | none => simp only [ppfGo, hd] at h; exact Option.noConfusion h
    | some data1 =>
      cases hf : foldFileIntoExts n data1 exts with
      | none => simp only [ppfGo, hd, hf] at h; exact Option.noConfusion h
      | some exts1 =>
        cases hrest : ppfGo rest exts1 with
        | none => simp only [ppfGo, hd, hf, hrest] at h; exact Option.noConfusion h
        | some pr =>
          obtain ⟨rest1, exts2⟩ := pr
          simp only [ppfGo, hd, hf, hrest, Option.some.injEq, Prod.mk.injEq] at h
          obtain ⟨b1, hb1, hcs1⟩ := Option.map_eq_some'.mp (foldFile_lookup_some hf hcs)
          have hrec := ih exts1 rest1 exts2 hrest k b1 hb1
          rw [← h.2, hrec, hcs1, accCS_cons, deltaCS_det hd, addCS_assoc]

theorem ppfGo_lookup_none : ∀ (fs : Files) (exts : Exts) (fs' : Files) (exts' : Exts),
    ppfGo fs exts = some (fs', exts') →
    ∀ (k : Key), alookup k exts = none →
    (alookup k exts').map CSof
      = (if touches k fs then some (addCS zeroCS (accCS k fs)) else none) := by
  intro fs
  induction fs with
  | nil =>
    intro exts fs' exts' h k hcs
    simp only [ppfGo, Option.some.injEq, Prod.mk.injEq] at h
    rw [← h.2, hcs]
    rfl
  | cons p rest ih =>
    intro exts fs' exts' h k hcs
    obtain ⟨n, data⟩ := p
    cases hd : determineCompressionSizeRatio data with
    | none => simp only [ppfGo, hd] at h; exact Option.noConfusion h
    | some data1 =>
      cases hf : foldFileIntoExts n data1 exts with
      | none => simp only [ppfGo, hd, hf] at h; exact Option.noConfusion h
      | some exts1 =>
        cases hrest : ppfGo rest exts1 with
        | none => simp only [ppfGo, hd, hf, hrest] at h; exact Option.noConfusion h
        | some pr =>
          obtain ⟨rest1, exts2⟩ := pr
          simp only [ppfGo, hd, hf, hrest, Option.some.injEq, Prod.mk.injEq] at h
          have hstep := foldFile_lookup_none hf hcs
          by_cases ke : fileExtension n = k
          · rw [if_pos ke] at hstep
            obtain ⟨b1, hb1, hcs1⟩ := Option.map_eq_some'.mp hstep
            have hrec := ppfGo_lookup_some rest exts1 rest1 exts2 hrest k b1 hb1
            have htt : touches k ((n, data) :: rest) = true := by
              rw [touches_cons, decide_eq_true ke, Bool.true_or]
            rw [← h.2, hrec, hcs1, htt, if_pos rfl, accCS_cons, deltaCS_det hd, addCS_assoc]
          · rw [if_neg ke] at hstep
            have hnone1 : alookup k exts1 = none := Option.map_eq_none'.mp hstep
            have hrec := ih exts1 rest1 exts2 hrest k hnone1
            have htt : touches k ((n, data) :: rest) = touches k rest := by
              rw [touches_cons, decide_eq_false ke, Bool.false_or]
            by_cases kw : k = wildcard
            · exfalso
              subst kw
              obtain ⟨w, _, _, _, hw, _, _, _, _⟩ := foldFile_eq hf
              have hnone : alookup wildcard
                  (ensureBucket (fileExtension n) exts) = none := by
                rw [alookup_ensure_ne ke, hcs]
              rw [hnone] at hw
              exact Option.noConfusion hw
            · have hh : hits k n = 0 := by rw [hits, if_neg kw, if_neg ke]
              rw [← h.2, hrec, htt, accCS_cons, hh, smulCS_zero, addCS_zero_left,
                addCS_zero_left]

theorem ppfGo_shape : ∀ (fs : Files) (exts : Exts) (fs' : Files) (exts' : Exts),
    ppfGo fs exts = some (fs', exts') →
    (∀ k, accCS k fs' = accCS k fs) ∧ (∀ k, touches k fs' = touches k fs) ∧
    (∀ p ∈ fs', determineCompressionSizeRatio p.2 = some p.2) := by
  intro fs
  induction fs with
  | nil =>
    intro exts fs' exts' h
    simp only [ppfGo, Option.some.injEq, Prod.mk.injEq] at h
    rw [← h.1]
    exact ⟨fun _ => rfl, fun _ => rfl, by simp⟩
  | cons p rest ih =>
    intro exts fs' exts' h
    obtain ⟨n, data⟩ := p
    cases hd : determineCompressionSizeRatio data with
    | none => simp only [ppfGo, hd] at h; exact Option.noConfusion h
    | some data1 =>
      cases hf : foldFileIntoExts n data1 exts with
      | none => simp only [ppfGo, hd, hf] at h; exact Option.noConfusion h
      | some exts1 =>
        cases hrest : ppfGo rest exts1 with
        | none => simp only [ppfGo, hd, hf, hrest] at h; exact Option.noConfusion h
        | some pr =>
          obtain ⟨rest1, exts2⟩ := pr
          simp only [ppfGo, hd, hf, hrest, Option.some.injEq, Prod.mk.injEq] at h
          obtain ⟨ha, ht, hfix⟩ := ih exts1 rest1 exts2 hrest
          rw [← h.1]
          refine ⟨?_, ?_, ?_⟩
          · intro k
            rw [accCS_cons, accCS_cons, ha k, deltaCS_det hd]
          · intro k
            rw [touches_cons, touches_cons, ht k]
          · intro q hq
            rcases List.mem_cons.mp hq with hq | hq
            · rw [hq]
              exact det_idem hd
            · exact hfix q hq

theorem ppfGo_fixed : ∀ (fs : Files) (exts : Exts) (fs' : Files) (exts' : Exts),
    (∀ p ∈ fs, determineCompressionSizeRatio p.2 = some p.2) →
    ppfGo fs exts = some (fs', exts') → fs' = fs := by
  intro fs
  induction fs with
  | nil =>
    intro exts fs' exts' _ h
    simp only [ppfGo, Option.some.injEq, Prod.mk.injEq] at h
    exact h.1.symm
  | cons p rest ih =>
    intro exts fs' exts' hfix h
    obtain ⟨n, data⟩ := p
    cases hd : determineCompressionSizeRatio data with
    | none =>
      exfalso
      have hdd := hfix (n, data) (by simp)
      rw [hdd] at hd
      exact Option.noConfusion hd
    | some data1 =>
      have hdd : data1 = data := by
        have hfx := hfix (n, data) (by simp)
        rw [hfx] at hd
        exact (Option.some.inj hd).symm
      cases hf : foldFileIntoExts n data1 exts with
      | none => simp only [ppfGo, hd, hf] at h; exact Option.noConfusion h
      | some exts1 =>
        cases hrest : ppfGo rest exts1 with
        | none => simp only [ppfGo, hd, hf, hrest] at h; exact Option.noConfusion h
        | some pr =>
          obtain ⟨rest1, exts2⟩ := pr
          simp only [ppfGo, hd, hf, hrest, Option.some.injEq, Prod.mk.injEq] at h
          have hr : rest1 = rest :=
            ih exts1 rest1 exts2 (fun q hq => hfix q (by simp [hq])) hrest
          rw [← h.1, hr, hdd]

theorem alookup_ppe (k : Key) (exts : Exts) :
    alookup k (postProcessExtensions exts) = (alookup k exts).map setRatios := by
  induction exts with
  | nil => rfl
  | cons p r ih =>
    simp only [postProcessExtensions] at ih
    by_cases hk : p.1 = k
    · simp [postProcessExtensions, alookup, hk]
    · simp [postProcessExtensions, alookup, hk, ih]

theorem CSof_setRatios (b : ExtBucket) : CSof (setRatios b) = CSof b := rfl

/-- JavaScript division is invariant under doubling numerator and
denominator, including the non-finite cases. -/
theorem jsDiv_add_self (a b : ℕ) : jsDiv (a + a) (b + b) = jsDiv a b := by
  by_cases hb : b = 0
  · subst hb
    by_cases ha : a = 0
    · subst ha; rfl
    · have haa : ¬(a + a = 0) := by omega
      rw [jsDiv, jsDiv]
      simp [ha, haa]
  · have hbb : ¬(b + b = 0) := by omega
    rw [jsDiv, jsDiv, if_neg hbb, if_neg hb]
    have hbq : (b : ℚ) ≠ 0 := Nat.cast_ne_zero.mpr hb
    congr 1
    push_cast
    field_simp
    ring

/-- Doubling all eight statistics of a bucket leaves the derived ratios of
`postProcessExtensions` unchanged. -/
theorem ratios_double {b b₂ : ExtBucket} (h : CSof b₂ = addCS (CSof b) (CSof b)) :
    bucketRatios (setRatios b₂) = bucketRatios (setRatios b) := by
  have h1 : b₂.count.minified = b.count.minified + b.count.minified := congrArg CS.cMin h
  have h2 : b₂.count.unminified = b.count.unminified + b.count.unminified :=
    congrArg CS.cUnmin h
  have h3 : b₂.count.both = b.count.both + b.count.both := congrArg CS.cBoth h
  have h6 : b₂.size.src = b.size.src + b.size.src := congrArg CS.sSrc h
  have h7 : b₂.size.dist = b.size.dist + b.size.dist := congrArg CS.sDist h
  have h8 : b₂.size.gzip = b.size.gzip + b.size.gzip := congrArg CS.sGzip h
  rw [bucketRatios, bucketRatios, setRatios, setRatios]
  simp only []
  rw [h1, h2, h3, h6, h7, h8]
  have e1 : b.count.minified + b.count.minified + (b.count.both + b.count.both)
      = (b.count.minified + b.count.both) + (b.count.minified + b.count.both) := by omega
  have e2 : b.count.minified + b.count.minified
        + (b.count.unminified + b.count.unminified) + (b.count.both + b.count.both)
      = (b.count.minified + b.count.unminified + b.count.both)
        + (b.count.minified + b.count.unminified + b.count.both) := by omega
  rw [e1, e2, jsDiv_add_self, jsDiv_add_self, jsDiv_add_self]

/-- C8 (confirmed): running `postProcessFiles` and
`postProcessExtensions` a second time on the maps produced by the first run
yields the same per-file map (hence the same `minificationSizeRatio` and
`compressionSizeRatio` entries) and, for every key, buckets with the same
`minificationRatio` and `compressionRatio` — even though the additive sums
double, every derived ratio is unchanged. -/
theorem claimC8 (fs fs1 fs2 : Files) (e1 e2 : Exts)
    (h1 : postProcessFiles fs initExtensions = some (fs1, e1))
    (h2 : postProcessFiles fs1 (postProcessExtensions e1) = some (fs2, e2)) :
    fs2 = fs1 ∧ ∀ k, (alookup k (postProcessExtensions e2)).map bucketRatios
      = (alookup k (postProcessExtensions e1)).map bucketRatios := by
  have hshape := ppfGo_shape fs initExtensions fs1 e1 h1
  constructor
  · exact ppfGo_fixed fs1 (postProcessExtensions e1) fs2 e2 hshape.2.2 h2
  · intro k
    rw [alookup_ppe, alookup_ppe]
    by_cases kw : k = wildcard
    · subst kw
      have hbase : alookup wildcard initExtensions = some emptyExtension := rfl
      obtain ⟨b1, hb1, hcs1⟩ := Option.map_eq_some'.mp
        (ppfGo_lookup_some fs initExtensions fs1 e1 h1 wildcard emptyExtension hbase)
      have hbase2 : alookup wildcard (postProcessExtensions e1)
          = some (setRatios b1) := by
        rw [alookup_ppe, hb1]; rfl
      obtain ⟨b2, hb2, hcs2⟩ := Option.map_eq_some'.mp
        (ppfGo_lookup_some fs1 (postProcessExtensions e1) fs2 e2 h2 wildcard
          (setRatios b1) hbase2)
      rw [hb1, hb2]
      simp only [Option.map_some']
      refine congrArg some (ratios_double ?_)
      rw [hcs2, CSof_setRatios, hshape.1 wildcard, hcs1, CSof_empty, addCS_zero_left]
    · have hbase : alookup k initExtensions = none := by
        rw [initExtensions, alookup, if_neg (fun hh => kw hh.symm)]
        rfl
      have hre1 := ppfGo_lookup_none fs initExtensions fs1 e1 h1 k hbase
      cases hb1l : alookup k e1 with
      | none =>
        rw [hb1l] at hre1
        simp only [Option.map_none'] at hre1
        have htou : touches k fs = false := by
          cases htou : touches k fs with
          | false => rfl
          | true => rw [htou, if_pos rfl] at hre1; exact Option.noConfusion hre1
        have hbase2 : alookup k (postProcessExtensions e1) = none := by
          rw [alookup_ppe, hb1l]; rfl
        have hre2 := ppfGo_lookup_none fs1 (postProcessExtensions e1) fs2 e2 h2 k hbase2
        rw [hshape.2.1 k, htou, if_neg (by exact Bool.false_ne_true)] at hre2
        have hb2l : alookup k e2 = none := Option.map_eq_none'.mp hre2
        rw [hb2l]
      | some b1 =>
        rw [hb1l] at hre1
        simp only [Option.map_some'] at hre1
        have htou : touches k fs = true := by
          cases htou : touches k fs with
          | true => rfl
          | false =>
            rw [htou, if_neg (by exact Bool.false_ne_true)] at hre1
            exact Option.noConfusion hre1
        rw [htou, if_pos rfl] at hre1
        have hcs1 : CSof b1 = addCS zeroCS (accCS k fs) := Option.some.inj hre1
        have hbase2 : alookup k (postProcessExtensions e1) = some (setRatios b1) := by
          rw [alookup_ppe, hb1l]; rfl
        obtain ⟨b2, hb2, hcs2⟩ := Option.map_eq_some'.mp
          (ppfGo_lookup_some fs1 (postProcessExtensions e1) fs2 e2 h2 k
            (setRatios b1) hbase2)
        rw [hb2]
        simp only [Option.map_some']
        refine congrArg some (ratios_double ?_)
        rw [hcs2, CSof_setRatios, hshape.1 k, hcs1, addCS_zero_left]

theorem claimC8_witness :
    [(String.toList "a.b", ({ name := String.toList "a.b", unminified := some ⟨2, 1⟩, compressionSizeRatio := some (jsDiv 1 2) } : FileEntry))]
      = [(String.toList "a.b", ({ name := String.toList "a.b", unminified := some ⟨2, 1⟩, compressionSizeRatio := some (jsDiv 1 2) } : FileEntry))] ∧
    (alookup (String.toList "b") (postProcessExtensions
        [(wildcard, (⟨⟨0, 2, 0⟩, ⟨0, 4, 4, 4, 2⟩, some ⟨jsDiv 0 1, jsDiv 2 2⟩, some (jsDiv 1 2)⟩ : ExtBucket)),
         (String.toList "b", (⟨⟨0, 2, 0⟩, ⟨0, 4, 4, 4, 2⟩, some ⟨jsDiv 0 1, jsDiv 2 2⟩, some (jsDiv 1 2)⟩ : ExtBucket))])).map bucketRatios
      = (alookup (String.toList "b") (postProcessExtensions
        [(wildcard, (⟨⟨0, 1, 0⟩, ⟨0, 2, 2, 2, 1⟩, none, none⟩ : ExtBucket)),
         (String.toList "b", (⟨⟨0, 1, 0⟩, ⟨0, 2, 2, 2, 1⟩, none, none⟩ : ExtBucket))])).map bucketRatios := by
  have hc := claimC8
    [(String.toList "a.b", ({ name := String.toList "a.b", unminified := some ⟨2, 1⟩ } : FileEntry))]
    [(String.toList "a.b", ({ name := String.toList "a.b", unminified := some ⟨2, 1⟩, compressionSizeRatio := some (jsDiv 1 2) } : FileEntry))]
    [(String.toList "a.b", ({ name := String.toList "a.b", unminified := some ⟨2, 1⟩, compressionSizeRatio := some (jsDiv 1 2) } : FileEntry))]
    [(wildcard, (⟨⟨0, 1, 0⟩, ⟨0, 2, 2, 2, 1⟩, none, none⟩ : ExtBucket)),
     (String.toList "b", (⟨⟨0, 1, 0⟩, ⟨0, 2, 2, 2, 1⟩, none, none⟩ : ExtBucket))]
    [(wildcard, (⟨⟨0, 2, 0⟩, ⟨0, 4, 4, 4, 2⟩, some ⟨jsDiv 0 1, jsDiv 2 2⟩, some (jsDiv 1 2)⟩ : ExtBucket)),
     (String.toList "b", (⟨⟨0, 2, 0⟩, ⟨0, 4, 4, 4, 2⟩, some ⟨jsDiv 0 1, jsDiv 2 2⟩, some (jsDiv 1 2)⟩ : ExtBucket))]
    rfl rfl
  exact ⟨hc.1, hc.2 (String.toList "b")⟩

/-- C4 (confirmed): `postProcessExtensions` gives every bucket
`minificationRatio.count = (count.minified + count.both) / totalCount`,
`minificationRatio.size = size.dist / size.src` and
`compressionRatio = size.gzip / size.src`, as exact rational divisions
whenever the denominators are nonzero (`_.sum(data.count)` summing the
three counters).  The counters and sizes themselves are untouched. -/
theorem claimC4 (exts : Exts) (k : Key) (b : ExtBucket)
    (h : alookup k exts = some b)
    (htot : b.count.minified + b.count.unminified + b.count.both ≠ 0)
    (hsrc : b.size.src ≠ 0) :
    ∃ b', alookup k (postProcessExtensions exts) = some b' ∧
      b'.count = b.count ∧ b'.size = b.size ∧
      b'.minificationRatio = some
        { count := JSNum.num (((b.count.minified + b.count.both : ℕ) : ℚ)
            / ((b.count.minified + b.count.unminified + b.count.both : ℕ) : ℚ)),
          size := JSNum.num (((b.size.dist : ℕ) : ℚ) / ((b.size.src : ℕ) : ℚ)) } ∧
      b'.compressionRatio = some (JSNum.num (((b.size.gzip : ℕ) : ℚ) / ((b.size.src : ℕ) : ℚ))) := by
  refine ⟨setRatios b, ?_, rfl, rfl, ?_, ?_⟩
  · rw [alookup_ppe, h]; rfl
  · rw [setRatios]
    simp [jsDiv, htot, hsrc]
  · rw [setRatios]
    simp [jsDiv, hsrc]

theorem claimC4_witness :
    ∃ b', alookup (String.toList "js")
        (postProcessExtensions
          [(String.toList "js", (⟨⟨1, 0, 1⟩, ⟨4, 10, 10, 4, 3⟩, none, none⟩ : ExtBucket))])
      = some b' ∧
      b'.count = (⟨1, 0, 1⟩ : Counts) ∧ b'.size = (⟨4, 10, 10, 4, 3⟩ : Sizes) ∧
      b'.minificationRatio = some
        { count := JSNum.num ((((1 : ℕ) + 1 : ℕ) : ℚ) / (((1 : ℕ) + 0 + 1 : ℕ) : ℚ)),
          size := JSNum.num (((4 : ℕ) : ℚ) / ((10 : ℕ) : ℚ)) } ∧
      b'.compressionRatio = some (JSNum.num (((3 : ℕ) : ℚ) / ((10 : ℕ) : ℚ))) :=
  claimC4 [(String.toList "js", (⟨⟨1, 0, 1⟩, ⟨4, 10, 10, 4, 3⟩, none, none⟩ : ExtBucket))]
    (String.toList "js") (⟨⟨1, 0, 1⟩, ⟨4, 10, 10, 4, 3⟩, none, none⟩ : ExtBucket)
    rfl (by decide) (by decide)

/-- C3 (corrected): after aggregation from the initial state, the wildcard
bucket exists and its `size.src`, `size.dist`, `size.gzip`, `size.minified`,
`size.unminified` and three counters equal the componentwise sums over all
real extension buckets — provided no ingested file's extension is itself
the literal `*` (such a file is folded twice into the wildcard bucket and
breaks the invariant; see the counterexample). -/
theorem claimC3 (fs fs' : Files) (exts' : Exts)
    (hext : ∀ p ∈ fs, fileExtension p.1 ≠ wildcard)
    (h : postProcessFiles fs initExtensions = some (fs', exts')) :
    (alookup wildcard exts').map CSof = some (sumCS (realBuckets exts')) :=
  (ppfGo_inv fs initExtensions fs' exts' hext wildInv_init h).2

theorem claimC3_witness :
    (alookup wildcard
        [(wildcard, (⟨⟨0, 1, 0⟩, ⟨0, 2, 2, 2, 1⟩, none, none⟩ : ExtBucket)),
         (String.toList "b", (⟨⟨0, 1, 0⟩, ⟨0, 2, 2, 2, 1⟩, none, none⟩ : ExtBucket))]).map CSof
      = some (sumCS (realBuckets
        [(wildcard, (⟨⟨0, 1, 0⟩, ⟨0, 2, 2, 2, 1⟩, none, none⟩ : ExtBucket)),
         (String.toList "b", (⟨⟨0, 1, 0⟩, ⟨0, 2, 2, 2, 1⟩, none, none⟩ : ExtBucket))])) :=
  claimC3
    [(String.toList "a.b", { name := String.toList "a.b", unminified := some ⟨2, 1⟩ })]
    [(String.toList "a.b", { name := String.toList "a.b", unminified := some ⟨2, 1⟩, compressionSizeRatio := some (jsDiv 1 2) })]
    [(wildcard, (⟨⟨0, 1, 0⟩, ⟨0, 2, 2, 2, 1⟩, none, none⟩ : ExtBucket)),
     (String.toList "b", (⟨⟨0, 1, 0⟩, ⟨0, 2, 2, 2, 1⟩, none, none⟩ : ExtBucket))]
    (by decide) rfl

theorem claimC10_witness :
    (isMinified (String.toList "a.min.js") = true ↔
      normalizeFilename (String.toList "a.min.js") ≠ String.toList "a.min.js") ∧
    ∃ e, alookup (normalizeFilename (String.toList "a.min.js"))
          (record [] (String.toList "a.min.js") ⟨7, 2⟩) = some e ∧
      (isMinified (String.toList "a.min.js") = true → e.minified = some ⟨7, 2⟩) ∧
      (isMinified (String.toList "a.min.js") = false → e.unminified = some ⟨7, 2⟩) :=
  claimC10 (String.toList "a.min.js") [] ⟨7, 2⟩

end CompressionReport
